import Mathlib

set_option maxRecDepth 100000

/-!
Verification development for the vulcan blockchain node.

This file gives a shallow embedding, in Lean 4, of the consensus-critical
core of the vulcan repository: the transaction and block data model, the
Merkle tree, the UTXO engine, the mempool, Proof-of-Work validation, the
miner pipeline and the gossip message handler.  Pure Go functions become
Lean functions; the in-place mutation of the Go code becomes explicit
state passing; Go uint64 arithmetic is modelled as Nat arithmetic reduced
modulo 2 to the 64; Go runtime panics become the none branch of an Option
result.  Timestamps, which the Go code obtains from the system clock and
immediately formats as RFC3339Nano text, are passed in as explicit string
parameters.  SHA-256 is implemented executably so that concrete hashes
can be evaluated inside proofs.
-/

namespace Vulcan

/-! ## Machine-word helpers.  Go uint64 arithmetic wraps modulo 2^64 and
the 32-bit words inside SHA-256 wrap modulo 2^32. -/

def W64 : Nat := 2 ^ 64

def W32 : Nat := 2 ^ 32

/-- Addition of Go uint64 values (wraps modulo 2^64). -/
def add64 (a b : Nat) : Nat := (a + b) % W64

/-! ## SHA-256, executable, over lists of bytes (each byte a Nat below 256).
Faithful to FIPS 180-4; all word arithmetic is Nat reduced mod 2^32. -/

def rotr32 (x n : Nat) : Nat := ((x >>> n) ||| (x <<< (32 - n))) % W32

def shr32 (x n : Nat) : Nat := x >>> n

def xor3 (a b c : Nat) : Nat := (a ^^^ b) ^^^ c

def bigSigma0 (x : Nat) : Nat := xor3 (rotr32 x 2) (rotr32 x 13) (rotr32 x 22)

def bigSigma1 (x : Nat) : Nat := xor3 (rotr32 x 6) (rotr32 x 11) (rotr32 x 25)

def smallSigma0 (x : Nat) : Nat := xor3 (rotr32 x 7) (rotr32 x 18) (shr32 x 3)

def smallSigma1 (x : Nat) : Nat := xor3 (rotr32 x 17) (rotr32 x 19) (shr32 x 10)

def chFn (x y z : Nat) : Nat := (x &&& y) ^^^ ((x ^^^ (W32 - 1)) &&& z)

def majFn (x y z : Nat) : Nat := xor3 (x &&& y) (x &&& z) (y &&& z)

def sha256K : List Nat :=
  [1116352408, 1899447441, 3049323471, 3921009573, 961987163, 1508970993,
   2453635748, 2870763221, 3624381080, 310598401, 607225278, 1426881987,
   1925078388, 2162078206, 2614888103, 3248222580, 3835390401, 4022224774,
   264347078, 604807628, 770255983, 1249150122, 1555081692, 1996064986,
   2554220882, 2821834349, 2952996808, 3210313671, 3336571891, 3584528711,
   113926993, 338241895, 666307205, 773529912, 1294757372, 1396182291,
   1695183700, 1986661051, 2177026350, 2456956037, 2730485921, 2820302411,
   3259730800, 3345764771, 3516065817, 3600352804, 4094571909, 275423344,
   430227734, 506948616, 659060556, 883997877, 958139571, 1322822218,
   1537002063, 1747873779, 1955562222, 2024104815, 2227730452, 2361852424,
   2428436474, 2756734187, 3204031479, 3329325298]

def sha256Init : List Nat :=
  [1779033703, 3144134277, 1013904242, 2773480762,
   1359893119, 2600822924, 528734635, 1541459225]

/-- Pad a byte string per FIPS 180-4: append 0x80, zero bytes, then the
bit length as an 8-byte big-endian integer. -/
def sha256Pad (msg : List Nat) : List Nat :=
  let len := msg.length
  let zeros := (119 - (len % 64)) % 64
  let bitLen := (len * 8) % W64
  msg ++ [0x80] ++ List.replicate zeros 0 ++
    [(bitLen >>> 56) % 256, (bitLen >>> 48) % 256, (bitLen >>> 40) % 256,
     (bitLen >>> 32) % 256, (bitLen >>> 24) % 256, (bitLen >>> 16) % 256,
     (bitLen >>> 8) % 256, bitLen % 256]

/-- Split a list into chunks of 64 elements; fuel bounds the recursion. -/
def chunks64 (fuel : Nat) (l : List Nat) : List (List Nat) :=
  match fuel, l with
  | 0, _ => []
  | _, [] => []
  | f + 1, l => l.take 64 :: chunks64 f (l.drop 64)

/-- Big-endian 32-bit words from a list of bytes. -/
def toWords : List Nat → List Nat
  | b0 :: b1 :: b2 :: b3 :: rest =>
      (((b0 * 256 + b1) * 256 + b2) * 256 + b3) :: toWords rest
  | _ => []

/-- Extend 16 message words to 64 via the SHA-256 message schedule. -/
def extendWords (fuel : Nat) (ws : List Nat) : List Nat :=
  match fuel with
  | 0 => ws
  | f + 1 =>
      let n := ws.length
      let w := (smallSigma1 (ws.getD (n - 2) 0) + ws.getD (n - 7) 0 +
                smallSigma0 (ws.getD (n - 15) 0) + ws.getD (n - 16) 0) % W32
      extendWords f (ws ++ [w])

/-- One round of the SHA-256 compression function on the 8-word state. -/
def sha256Round (st : List Nat) (kw : Nat × Nat) : List Nat :=
  match st with
  | [a, b, c, d, e, f, g, h] =>
      let t1 := (h + bigSigma1 e + chFn e f g + kw.1 + kw.2) % W32
      let t2 := (bigSigma0 a + majFn a b c) % W32
      [(t1 + t2) % W32, a, b, c, (d + t1) % W32, e, f, g]
  | other => other

/-- Compress one 64-byte block into the running hash state. -/
def sha256Compress (st : List Nat) (block : List Nat) : List Nat :=
  let ws := extendWords 48 (toWords block)
  let st2 := (sha256K.zip ws).foldl sha256Round st
  (st.zip st2).map (fun p => (p.1 + p.2) % W32)

/-- SHA-256 digest of a byte string, as a list of 32 bytes. -/
def sha256Bytes (msg : List Nat) : List Nat :=
  let padded := sha256Pad msg
  let final := (chunks64 (padded.length + 1) padded).foldl sha256Compress sha256Init
  final.flatMap (fun w => [(w >>> 24) % 256, (w >>> 16) % 256, (w >>> 8) % 256, w % 256])

def hexDigits : List Char := "0123456789abcdef".data

/-- Lowercase hex rendering of a byte list, as in Go hex.EncodeToString. -/
def hexEncodeBytes (bs : List Nat) : List Char :=
  bs.flatMap (fun b => [hexDigits.getD (b / 16) '0', hexDigits.getD (b % 16) '0'])

/-- Bytes of an ASCII string.  Every string the vulcan code hashes is ASCII. -/
def strBytes (s : String) : List Nat := s.data.map Char.toNat

/-- SHA-256 of a string, rendered as 64 lowercase hex characters, matching
the Go pattern sha256.Sum256 followed by hex.EncodeToString. -/
def sha256Hex (s : String) : String := ⟨hexEncodeBytes (sha256Bytes (strBytes s))⟩

/-! ## Transactions (types/transaction.go).  The Go struct fields From and
To are named fromAddr and toAddr here because from is a Lean keyword.
amount and fee are Go uint64 values, modelled as Nat together with wrapping
arithmetic where the code adds them.  The timestamp is the RFC3339Nano
rendering that the Go code feeds to every hash. -/

structure Transaction where
  id : String
  fromAddr : String
  toAddr : String
  amount : Nat
  fee : Nat
  signature : String
  timestamp : String
  deriving DecidableEq, Repr

/-- Transaction.Hash: SHA-256 over from, to, amount, fee, signature,
timestamp (decimal text for the integers), rendered hex. -/
def txHash (tx : Transaction) : String :=
  sha256Hex (tx.fromAddr ++ tx.toAddr ++ toString tx.amount ++ toString tx.fee ++
    tx.signature ++ tx.timestamp)

/-- Transaction.IsCoinbase: empty sender and the literal signature coinbase. -/
def isCoinbase (tx : Transaction) : Bool :=
  tx.fromAddr == "" && tx.signature == "coinbase"

/-- Transaction.Total: amount plus fee in Go uint64 arithmetic (wraps). -/
def txTotal (tx : Transaction) : Nat := add64 tx.amount tx.fee

/-- Transaction.Validate, mirroring the branch order of the source; none
means valid. -/
def txValidate (tx : Transaction) : Option String :=
  if isCoinbase tx then
    if tx.toAddr = "" then some "to address is required"
    else if tx.amount = 0 then some "amount must be greater than zero"
    else if tx.id = "" then some "transaction ID must be set"
    else if tx.id ≠ txHash tx then some "transaction ID mismatch"
    else none
  else
    if tx.fromAddr = "" then some "from address is required"
    else if tx.toAddr = "" then some "to address is required"
    else if tx.amount = 0 then some "amount must be greater than zero"
    else if tx.fee = 0 then some "fee must be greater than zero"
    else if tx.signature = "" then some "transaction must be signed"
    else if tx.id = "" then some "transaction ID must be set"
    else if tx.id ≠ txHash tx then some "transaction ID mismatch"
    else none

/-- NewCoinbaseTransaction: fee 45, signature coinbase, id assigned from the
hash.  The Go code stamps time.Now; the instant is the now parameter. -/
def newCoinbaseTransaction (now toA : String) (amount : Nat) : Transaction :=
  let tx : Transaction :=
    { id := "", fromAddr := "", toAddr := toA, amount := amount, fee := 45,
      signature := "coinbase", timestamp := now }
  { tx with id := txHash tx }

/-! ## Merkle tree (core/merkle.go).  The Go recursion on levels terminates
because each level at least halves; here a fuel argument bounds it and
every caller passes fuel at least the list length, which always suffices. -/

def combineHashes (h1 h2 : String) : String := sha256Hex (h1 ++ h2)

/-- Duplicate the last element when the level has odd length. -/
def padEven (l : List String) : List String :=
  if l.length % 2 = 0 then l else l ++ [l.getLastD ""]

/-- Combine consecutive pairs of an even-length level. -/
def pairUp : List String → List String
  | a :: b :: rest => combineHashes a b :: pairUp rest
  | _ => []

/-- buildMerkleTree: reduce levels until a single node remains.  The zero
fuel and empty-list rows are unreachable from buildMerkleRoot. -/
def buildMerkleTreeF : Nat → List String → String
  | _, [h] => h
  | 0, _ => ""
  | _ + 1, [] => ""
  | f + 1, hs => buildMerkleTreeF f (pairUp (padEven hs))

/-- BuildMerkleRoot: empty string for the empty list. -/
def buildMerkleRoot (txIDs : List String) : String :=
  if txIDs.isEmpty then "" else buildMerkleTreeF txIDs.length txIDs

/-- One pass of GenerateMerkleProof per level: pad, record the sibling,
descend with the halved index. -/
def generateMerkleProofF : Nat → List String → Nat → List String
  | _, [], _ => []
  | _, [_], _ => []
  | 0, _, _ => []
  | f + 1, level, idx =>
    let padded := padEven level
    let sibIdx := if idx % 2 = 0 then idx + 1 else idx - 1
    let head := if sibIdx < padded.length then [padded.getD sibIdx ""] else []
    head ++ generateMerkleProofF f (pairUp padded) (idx / 2)

/-- GenerateMerkleProof: nil outside 0 <= index < len(txIDs).  The Go index
is an int; a negative argument is rejected by the same guard, so Nat
loses nothing. -/
def generateMerkleProof (txIDs : List String) (index : Nat) : List String :=
  if index < txIDs.length then generateMerkleProofF txIDs.length txIDs index else []

/-- The fold inside VerifyTransactionInclusion; k is the running position
in the proof, so bit k of index picks the concatenation side. -/
def verifyFold (current : String) (proof : List String) (index k : Nat) : String :=
  match proof with
  | [] => current
  | sib :: rest =>
    let next := if (index >>> k) &&& 1 == 0 then combineHashes current sib
                else combineHashes sib current
    verifyFold next rest index (k + 1)

/-- VerifyTransactionInclusion. -/
def verifyTransactionInclusion (txID merkleRoot : String) (proof : List String)
    (index : Nat) : Bool :=
  verifyFold txID proof index 0 == merkleRoot

/-! ## Blocks (the core Block source file).  difficulty is a Go int, so it
is an Int here; index and nonce are uint64. -/

structure Block where
  index : Nat
  timestamp : String
  transactions : List Transaction
  nonce : Nat
  previousHash : String
  merkleRoot : String
  hash : String
  difficulty : Int
  deriving DecidableEq, Repr

/-- Block.ComputeHash: SHA-256 over index, timestamp, merkle root, previous
hash, nonce, difficulty, decimal text for integers (Int renders with a
leading minus exactly as the Go %d verb does). -/
def computeHash (b : Block) : String :=
  sha256Hex (toString b.index ++ b.timestamp ++ b.merkleRoot ++ b.previousHash ++
    toString b.nonce ++ toString b.difficulty)

/-- Block.ComputeMerkleRoot. -/
def computeMerkleRoot (b : Block) : String :=
  if b.transactions.isEmpty then "" else buildMerkleRoot (b.transactions.map (·.id))

/-- NewBlock: nonce 0, hash still empty (the Go zero value), merkle root
computed from the transactions; now is the stamped creation instant. -/
def newBlock (now : String) (index : Nat) (txs : List Transaction)
    (previousHash : String) (difficulty : Int) : Block :=
  let b : Block :=
    { index := index, timestamp := now, transactions := txs, nonce := 0,
      previousHash := previousHash, merkleRoot := "", hash := "",
      difficulty := difficulty }
  { b with merkleRoot := computeMerkleRoot b }

/-- First failing transaction validation inside Block.Validate. -/
def firstTxError : List Transaction → Option String
  | [] => none
  | t :: rest =>
    match txValidate t with
    | some e => some e
    | none => firstTxError rest

/-- Block.Validate, in source branch order. -/
def blockValidate (b : Block) : Option String :=
  if b.index = 0 ∧ b.previousHash ≠ "0" then
    some "genesis block must have previous hash of 0"
  else if b.hash = "" then some "block hash is empty"
  else if b.hash ≠ computeHash b then some "block hash is invalid"
  else if b.merkleRoot ≠ computeMerkleRoot b then some "merkle root mismatch"
  else firstTxError b.transactions

/-! ## UTXO engine (core/utxo.go).  The Go state is a nested map keyed by
transaction id and output index.  The embedding is a list carrying at most
one entry per key (addUTXO replaces like a map insert); the list order
stands for the Go map enumeration order, which the spec leaves
unspecified but stable. -/

structure UTXO where
  txId : String
  address : String
  amount : Nat
  index : Int
  deriving DecidableEq, Repr

abbrev UTXOSet := List UTXO

def utxoKeyIs (tid : String) (idx : Int) (u : UTXO) : Bool :=
  u.txId == tid && u.index == idx

/-- AddUTXO: map insert, replacing any entry with the same key. -/
def addUTXO (s : UTXOSet) (u : UTXO) : UTXOSet :=
  (List.filter (fun v => !(utxoKeyIs u.txId u.index v)) s) ++ [u]

/-- RemoveUTXO. -/
def removeUTXO (s : UTXOSet) (tid : String) (idx : Int) : UTXOSet :=
  List.filter (fun v => !(utxoKeyIs tid idx v)) s

/-- GetUTXOsForAddress. -/
def getUTXOsForAddress (s : UTXOSet) (address : String) : List UTXO :=
  List.filter (fun u => u.address == address) s

/-- GetBalance: the Go accumulation is uint64 addition, so it wraps. -/
def getBalance (s : UTXOSet) (address : String) : Nat :=
  (getUTXOsForAddress s address).foldl (fun acc u => add64 acc u.amount) 0

/-- The greedy accumulation loop of ApplyTransaction: take UTXOs in order,
adding amounts with uint64 wrap, stopping as soon as the accumulator
reaches totalNeeded. -/
def selectGreedy (needed : Nat) : List UTXO → Nat → List UTXO × Nat
  | [], acc => ([], acc)
  | u :: rest, acc =>
    let acc2 := add64 acc u.amount
    if needed ≤ acc2 then ([u], acc2)
    else
      let r := selectGreedy needed rest acc2
      (u :: r.1, r.2)

/-- UTXOSet.ApplyTransaction.  The pair result carries the set as mutated
so far plus the error, mirroring in-place mutation: every error of the
source occurs before the first mutation, which the shape below shows. -/
def applyTransaction (s : UTXOSet) (tx : Transaction) : UTXOSet × Option String :=
  if isCoinbase tx then
    (addUTXO s { txId := tx.id, address := tx.toAddr, amount := tx.amount, index := 0 }, none)
  else
    let senderUTXOs := getUTXOsForAddress s tx.fromAddr
    if senderUTXOs.isEmpty then (s, some "sender has no UTXOs")
    else
      let totalNeeded := txTotal tx
      let sel := selectGreedy totalNeeded senderUTXOs 0
      let utxosToSpend := sel.1
      let totalAvailable := sel.2
      if totalAvailable < totalNeeded then
        (s, some "insufficient balance")
      else
        let s1 := utxosToSpend.foldl (fun acc u => removeUTXO acc u.txId u.index) s
        let s2 := addUTXO s1 { txId := tx.id, address := tx.toAddr, amount := tx.amount, index := 0 }
        let change := totalAvailable - totalNeeded
        let s3 :=
          if 0 < change then
            addUTXO s2 { txId := tx.id, address := tx.fromAddr, amount := change, index := 1 }
          else s2
        (s3, none)

/-- UTXOSet.Update: apply the transactions of a block in order, stopping at
the first failure; mutations already made by earlier transactions stay. -/
def updateTxs : UTXOSet → List Transaction → UTXOSet × Option String
  | s, [] => (s, none)
  | s, t :: rest =>
    match applyTransaction s t with
    | (s2, none) => updateTxs s2 rest
    | (s2, some e) => (s2, some e)

/-- UTXOSet.ValidateTransaction: the cheap balance precheck. -/
def validateTransaction (s : UTXOSet) (tx : Transaction) : Option String :=
  if isCoinbase tx then none
  else if getBalance s tx.fromAddr < txTotal tx then some "insufficient balance"
  else none

/-! ## Mempool (txpool/mempool.go).  A set keyed by id; the list order
stands for the Go map enumeration order. -/

abbrev Mempool := List Transaction

/-- Mempool.AddTransaction: reject duplicates by id. -/
def mempoolAddTransaction (mp : Mempool) (tx : Transaction) : Mempool × Option String :=
  if List.any mp (fun t => t.id == tx.id) then (mp, some "transaction already in mempool")
  else (mp ++ [tx], none)

/-- Mempool.RemoveTransaction. -/
def mempoolRemoveTransaction (mp : Mempool) (txID : String) : Mempool :=
  List.filter (fun t => !(t.id == txID)) mp

/-- The fee-descending comparison handed to sort.Slice. -/
def feeGE (a b : Transaction) : Prop := b.fee ≤ a.fee

instance : DecidableRel feeGE := fun a b => Nat.decLe b.fee a.fee

instance : IsTotal Transaction feeGE := ⟨fun a b => Nat.le_total b.fee a.fee⟩

instance : IsTrans Transaction feeGE := ⟨fun _ _ _ h1 h2 => Nat.le_trans h2 h1⟩

/-- Mempool.GetTransactions: sort by fee descending, then slice to the
limit.  The Go limit is an int: when it is negative the slice expression
txs[:limit] panics at runtime, which is the none branch here. -/
def getTransactions (mp : Mempool) (limit : Int) : Option (List Transaction) :=
  let txs := List.insertionSort feeGE mp
  if (txs.length : Int) > limit then
    if limit < 0 then none
    else some (txs.take limit.toNat)
  else some txs

/-! ## Proof-of-Work (consensus/pow.go).  Both constructors clamp the
difficulty to at least 1, so the stored difficulty is a Nat. -/

structure ProofOfWork where
  difficulty : Nat
  deriving DecidableEq, Repr

/-- NewProofOfWork: difficulty below 1 becomes 1 (the target block time
plays no part in the claims). -/
def newProofOfWork (difficulty : Int) : ProofOfWork :=
  if difficulty < 1 then ⟨1⟩ else ⟨difficulty.toNat⟩

/-- getTarget: the required all-zeros target string. -/
def getTarget (pow : ProofOfWork) : String := ⟨List.replicate pow.difficulty '0'⟩

/-- isValidHash: hash long enough and starting with the target. -/
def isValidHash (hash target : String) : Bool :=
  if hash.data.length < target.data.length then false
  else hash.data.take target.data.length == target.data

/-- ProofOfWork.ValidateBlock: recomputed hash must match, then the
leading-zero requirement against the configured difficulty. -/
def powValidateBlock (pow : ProofOfWork) (b : Block) : Option String :=
  if b.hash ≠ computeHash b then some "block hash is incorrect"
  else if !(isValidHash b.hash (getTarget pow)) then
    some "block hash does not meet difficulty requirement"
  else none

/-- ProofOfWork.Mine: set the hash, test it, and retry with the next nonce.
The Go loop is unbounded; fuel bounds it here and exhaustion is none. -/
def powMine (pow : ProofOfWork) : Nat → Block → Option Block
  | 0, _ => none
  | f + 1, b =>
    let b2 := { b with hash := computeHash b }
    if isValidHash b2.hash (getTarget pow) then some b2
    else powMine pow f { b2 with nonce := b2.nonce + 1 }

/-! ## Chain (blockchain.go).  The Blockchain holds the ordered in-memory
block list, a separate height counter (kept equal to the top index in
every reachable state), and a pointer to the shared UTXO set: AddBlock
first validates, then applies every block transaction to that shared set
(stopping at the first failure, which leaves the earlier applications in
place and the chain unchanged), and only then appends the block and
increments the height.  The persistent store is not modelled; a SaveBlock
failure does not affect the in-memory state read by every other
component, which is what the claims are about. -/

structure Blockchain where
  blocks : List Block
  height : Nat
  deriving DecidableEq, Repr

/-- Blockchain.GetHeight: the stored counter, not the list length. -/
def getHeight (bc : Blockchain) : Nat := bc.height

/-- Blockchain.GetLatestBlock: nil (none) on an empty chain. -/
def getLatestBlock (bc : Blockchain) : Option Block := bc.blocks.getLast?

/-- Blockchain.GetBlock: nil (none) when the index reaches the count. -/
def getBlock (bc : Blockchain) (index : Nat) : Option Block := bc.blocks.get? index

/-- Blockchain.GetBlocks(start, limit): the stop position is start plus
limit in wrapping uint64 arithmetic, clamped down to the block count; the
Go slice expression blocks[start:end] then panics whenever start exceeds
that stop position (for example whenever start exceeds the block count, or
when the uint64 sum wraps below start), which the none branch records. -/
def getBlocks (bc : Blockchain) (start limit : Nat) : Option (List Block) :=
  let stop0 := add64 start limit
  let stop := if bc.blocks.length < stop0 then bc.blocks.length else stop0
  if stop < start then none
  else some ((bc.blocks.drop start).take (stop - start))

/-- Blockchain.ValidateBlock: the previous-hash comparison against the tip
runs only when bc.height > 0, so the first block appended onto a freshly
initialised chain (holding just genesis, height 0) never has its
previous_hash checked; then the index must equal height plus one, then the
block validates itself.  The Go code falls through from the guarded check
to the index check; that fall-through is rendered here by repeating the
tail in both branches.  Under the guard the Go code indexes
blocks[len-1], which would panic on an empty list; that case, impossible
in a reachable state, is rendered as an error. -/
def chainValidateBlock (bc : Blockchain) (b : Block) : Option String :=
  if 0 < bc.height then
    match bc.blocks.getLast? with
    | some lastBlock =>
      if b.previousHash ≠ lastBlock.hash then some "previous hash mismatch"
      else if b.index ≠ bc.height + 1 then some "invalid block index"
      else blockValidate b
    | none => some "positive height on an empty chain"
  else
    if b.index ≠ bc.height + 1 then some "invalid block index"
    else blockValidate b

/-- Blockchain.AddBlock: validate, then apply every block transaction to
the shared UTXO set in order, stopping at the first failure (the earlier
applications stay in the set while the chain is left unchanged), then
append the block and increment the height.  The per-transaction loop is
the same stop-at-first-error iteration as UTXOSet.Update, hence the shared
updateTxs. -/
def addBlock (bc : Blockchain) (us : UTXOSet) (b : Block) :
    (Blockchain × UTXOSet) × Option String :=
  match chainValidateBlock bc b with
  | some e => ((bc, us), some ("invalid block: " ++ e))
  | none =>
    match updateTxs us b.transactions with
    | (us2, some e) => ((bc, us2), some ("failed to apply transaction: " ++ e))
    | (us2, none) => ((⟨bc.blocks ++ [b], bc.height + 1⟩, us2), none)

/-! ## Genesis (core/genesis.go). -/

def preFundedAddress : String :=
  "04f8a1c2d3e4f5a6b7c8d9e0f1a2b3c4d5e6f7a8b9c0d1e2f3a4b5c6d7e8f9a0b1c2d3e4f5a6b7c8d9e0f1a2b3c4d5e6f7a8b9c0d1e2f3a4b5c6d7e8f9"

/-- The fixed genesis block instant: the Go code renders
time.Unix(1577836800, 0) through RFC3339Nano; in UTC that is this
constant. -/
def genesisTimestamp : String := "2020-01-01T00:00:00Z"

/-- NewGenesisBlock.  Crucially, the coinbase inside it is built by
NewCoinbaseTransaction, which stamps the current instant (the now
parameter): only the block-level timestamp is fixed. -/
def newGenesisBlock (now : String) : Block :=
  let coinbase := newCoinbaseTransaction now preFundedAddress 1000000
  let g : Block :=
    { index := 0, timestamp := genesisTimestamp, transactions := [coinbase],
      nonce := 0, previousHash := "0", merkleRoot := "", hash := "",
      difficulty := 1 }
  let g2 := { g with merkleRoot := computeMerkleRoot g }
  { g2 with hash := computeHash g2 }

/-- createGenesisBlock run at node initialisation: the genesis block
becomes the whole chain and the height counter keeps its zero value. -/
def initialChain (now : String) : Blockchain := ⟨[newGenesisBlock now], 0⟩

/-- The shared UTXO set right after createGenesisBlock: every genesis
transaction applied in order, with the result of each application
discarded (the Go loop ignores the error). -/
def initialUTXOs (now : String) : UTXOSet :=
  (newGenesisBlock now).transactions.foldl (fun acc t => (applyTransaction acc t).1) []

/-! ## Miner (miner/miner.go) over the shared node state. -/

structure SysState where
  chain : Blockchain
  utxos : UTXOSet
  mempool : Mempool

def blockReward : Nat := 50

/-- Miner.MineBlock: draw up to 100 transactions, build the coinbase with
reward plus fees, assemble and mine the block, then append it via
AddBlock, which itself applies every block transaction to the shared UTXO
set (so an AddBlock failure can still leave a partially mutated set,
which the error branch keeps); on success the miner calls UTXOSet.Update
on the same set, applying the same transactions a second time (the source
logs an Update failure and continues, so the error is dropped here just
as there), and finally drops the selected transactions from the mempool.
A nil tip would make the Go code panic reading lastBlock.Hash; an
initialised node always holds genesis, and the branch is rendered as an
error.  fuel bounds the nonce search; nowCb and nowBlk are the instants
stamped on the coinbase and block. -/
def mineBlock (pow : ProofOfWork) (fuel : Nat) (nowCb nowBlk minerAddress : String)
    (st : SysState) : SysState × Option String :=
  match getTransactions st.mempool 100 with
  | none => (st, some "unreachable: the literal limit 100 is positive")
  | some txs =>
    let totalFees := txs.foldl (fun acc t => add64 acc t.fee) 0
    let coinbase := newCoinbaseTransaction nowCb minerAddress (add64 blockReward totalFees)
    let allTxs := coinbase :: txs
    match getLatestBlock st.chain with
    | none => (st, some "empty chain")
    | some lastBlock =>
      let nb := newBlock nowBlk (getHeight st.chain + 1) allTxs lastBlock.hash
        (pow.difficulty : Int)
      match powMine pow fuel nb with
      | none => (st, some "mining fuel exhausted")
      | some mined =>
        match addBlock st.chain st.utxos mined with
        | ((_, us2), some e) => ({ st with utxos := us2 }, some e)
        | ((chain2, us2), none) =>
          let utxos3 := (updateTxs us2 mined.transactions).1
          let mempool2 := txs.foldl (fun mp t => mempoolRemoveTransaction mp t.id) st.mempool
          ({ chain := chain2, utxos := utxos3, mempool := mempool2 }, none)

/-! ## Gossip handler (p2p/gossip.go).  handleMessage acts on a decoded
message; the decoded payloads are the two defined message variants.  The
source ignores the error results of AddTransaction and AddBlock, so only
the first components pass through; re-broadcast does not change the local
state. -/

inductive GossipMessage where
  | newTransaction (tx : Transaction)
  | newBlock (b : Block)

/-- Node.handleMessage.  The new_block arm calls AddBlock on the node
blockchain, which holds the same UTXO set pointer as everything else, so
both the chain and the shared UTXO set change. -/
def handleMessage (st : SysState) (msg : GossipMessage) : SysState :=
  match msg with
  | .newTransaction tx => { st with mempool := (mempoolAddTransaction st.mempool tx).1 }
  | .newBlock b =>
    let r := addBlock st.chain st.utxos b
    { st with chain := r.1.1, utxos := r.1.2 }

/-! ## Wallet key rendering (the wallet keys source, concatenated into the
provided api sources).  Go big.Int Bytes() is the minimal big-endian
encoding, empty for zero: PublicKeyToAddress concatenates it without any
padding. -/

/-- Minimal big-endian bytes of a Nat, as Go big.Int Bytes(); the fuel 64
covers integers below 2^512, far beyond 256-bit coordinates. -/
def natBytesF : Nat → Nat → List Nat
  | 0, _ => []
  | f + 1, n => if n = 0 then [] else natBytesF f (n / 256) ++ [n % 256]

def natBytes (n : Nat) : List Nat := natBytesF 64 n

/-- PublicKeyToAddress: hex of 0x04 then X then Y, each in minimal
big-endian form (no zero padding in the source). -/
def publicKeyToAddress (x y : Nat) : String :=
  ⟨hexEncodeBytes ((4 :: natBytes x) ++ natBytes y)⟩

def hexVal (c : Char) : Option Nat :=
  let n := c.toNat
  if 48 ≤ n ∧ n ≤ 57 then some (n - 48)
  else if 97 ≤ n ∧ n ≤ 102 then some (n - 87)
  else if 65 ≤ n ∧ n ≤ 70 then some (n - 55)
  else none

/-- Go hex.DecodeString on a character list; none is a decode error. -/
def hexDecode : List Char → Option (List Nat)
  | [] => some []
  | c1 :: c2 :: rest =>
    match hexVal c1, hexVal c2, hexDecode rest with
    | some a, some b, some l => some ((a * 16 + b) :: l)
    | _, _, _ => none
  | [_] => none

/-- AddressToPublicKey: decode hex, require exactly 65 bytes with leading
0x04, then parse the curve point.  The btcec parse step accepts every
well-formed on-curve key, which is all the claims need; none is any of the
error returns of the source. -/
def addressToPublicKey (address : String) : Option (List Nat) :=
  match hexDecode address.data with
  | none => none
  | some bytes =>
    if bytes.length ≠ 65 then none
    else if bytes.headD 0 ≠ 4 then none
    else some bytes

/-- The secp256k1 field prime and curve equation, for exhibiting that a
concrete failing input is a genuine curve point. -/
def secpP : Nat :=
  115792089237316195423570985008687907853269984665640564039457584007908834671663

def onCurve (x y : Nat) : Bool :=
  x < secpP && y < secpP && (y * y) % secpP == (x * x * x + 7) % secpP

/-! ## Claim-side vocabulary. -/

/-- The true (unwrapped) sum of a list of UTXO amounts. -/
def sumAmounts (l : List UTXO) : Nat := (l.map (fun u => u.amount)).sum

/-- The aggregate (unwrapped) balance of an address. -/
def mathBalance (s : UTXOSet) (address : String) : Nat :=
  sumAmounts (getUTXOsForAddress s address)

/-- The map keys of the UTXO set. -/
def utxoKeys (s : UTXOSet) : List (String × Int) := s.map (fun u => (u.txId, u.index))

/-- The hash starts with at least d zero hex characters. -/
def leadingZeroChars (d : Nat) (s : String) : Prop :=
  d ≤ s.data.length ∧ s.data.take d = List.replicate d '0'

instance (d : Nat) (s : String) : Decidable (leadingZeroChars d s) :=
  inferInstanceAs (Decidable (_ ∧ _))

/-! ## Generic lemmas about the embedding. -/

theorem sumAmounts_nil : sumAmounts [] = 0 := rfl

theorem sumAmounts_cons (u : UTXO) (l : List UTXO) :
    sumAmounts (u :: l) = u.amount + sumAmounts l := by
  simp [sumAmounts]

theorem sumAmounts_append (l1 l2 : List UTXO) :
    sumAmounts (l1 ++ l2) = sumAmounts l1 + sumAmounts l2 := by
  simp [sumAmounts]

theorem sumAmounts_sublist_le {l1 l2 : List UTXO} (h : l1.Sublist l2) :
    sumAmounts l1 ≤ sumAmounts l2 := by
  induction h with
  | slnil => exact Nat.le_refl 0
  | cons u _ ih => rw [sumAmounts_cons]; omega
  | cons₂ u _ ih => rw [sumAmounts_cons, sumAmounts_cons]; omega

/-- The greedy loop of ApplyTransaction, characterised: when the true sums
do not overflow uint64, the returned accumulator is the true sum of the
selected sublist, and a result below the requirement means everything was
consumed. -/
theorem selectGreedy_spec (needed : Nat) :
    ∀ (l : List UTXO) (acc : Nat), acc + sumAmounts l < W64 →
      (selectGreedy needed l acc).2 = acc + sumAmounts (selectGreedy needed l acc).1 ∧
      (selectGreedy needed l acc).1.Sublist l ∧
      ((selectGreedy needed l acc).2 < needed → (selectGreedy needed l acc).1 = l) := by
  intro l
  induction l with
  | nil =>
    intro acc _
    simp [selectGreedy, sumAmounts_nil]
  | cons u rest ih =>
    intro acc h
    rw [sumAmounts_cons] at h
    have hle : acc + u.amount < W64 := by omega
    have hacc2 : add64 acc u.amount = acc + u.amount := by
      simpa [add64] using Nat.mod_eq_of_lt hle
    simp only [selectGreedy, hacc2]
    by_cases hb : needed ≤ acc + u.amount
    · rw [if_pos hb]
      refine ⟨by simp [sumAmounts_cons, sumAmounts_nil], ?_, ?_⟩
      · exact List.Sublist.cons₂ u (List.nil_sublist rest)
      · intro hlt
        exact absurd hlt (Nat.not_lt.mpr hb)
    · rw [if_neg hb]
      obtain ⟨h1, h2, h3⟩ := ih (acc + u.amount) (by omega)
      refine ⟨?_, List.Sublist.cons₂ u h2, ?_⟩
      · rw [sumAmounts_cons]
        omega
      · intro hlt
        rw [h3 hlt]

/-- isValidHash against an all-zeros target is exactly the leading-zeros
predicate. -/
theorem isValidHash_target_iff (pow : ProofOfWork) (s : String) :
    isValidHash s (getTarget pow) = true ↔ leadingZeroChars pow.difficulty s := by
  unfold isValidHash getTarget leadingZeroChars
  rcases s with ⟨data⟩
  simp only [String.data]
  by_cases hlen : data.length < (List.replicate pow.difficulty '0').length
  · rw [if_pos hlen]
    simp only [List.length_replicate] at hlen
    constructor
    · intro h; cases h
    · intro h; omega
  · rw [if_neg hlen]
    simp only [List.length_replicate] at hlen
    constructor
    · intro h
      refine ⟨by omega, ?_⟩
      simpa [List.length_replicate] using (beq_iff_eq.mp h)
    · intro h
      exact beq_iff_eq.mpr (by simpa [List.length_replicate] using h.2)

/-! ## C10 -/

/-- C10: ProofOfWork.ValidateBlock checks the leading-zero requirement
against the configured difficulty of the ProofOfWork instance, not the
Difficulty field of the block: for any block whose stored hash equals its
recomputed hash, validation succeeds exactly when the hash starts with
pow.difficulty zero characters, whatever the block-level Difficulty says. -/
theorem c10_powValidateBlock_uses_configured_difficulty
    (pow : ProofOfWork) (b : Block) (hh : b.hash = computeHash b) :
    powValidateBlock pow b = none ↔ leadingZeroChars pow.difficulty b.hash := by
  unfold powValidateBlock
  rw [if_neg (by simp [hh])]
  by_cases hv : isValidHash b.hash (getTarget pow) = true
  · simp only [hv, Bool.not_true, Bool.false_eq_true, if_false]
    simp only [true_iff]
    exact (isValidHash_target_iff pow b.hash).mp hv
  · have hv2 : isValidHash b.hash (getTarget pow) = false := by
      cases h : isValidHash b.hash (getTarget pow)
      · rfl
      · exact absurd h hv
    simp only [hv2, Bool.not_false, if_true]
    constructor
    · intro h; cases h
    · intro h
      exact absurd ((isValidHash_target_iff pow b.hash).mpr h) hv

def c10Block : Block :=
  { index := 0, timestamp := "2025-01-01T00:00:09Z", transactions := [],
    nonce := 0, previousHash := "0", merkleRoot := "",
    hash := "e252c17f062ed96d0faee00a0c1a77b1bb4959ba997f13541da5bb2e9b6e6992",
    difficulty := 1 }

theorem c10_witness :
    c10Block.hash = computeHash c10Block ∧
    (powValidateBlock ⟨1⟩ c10Block = none ↔ leadingZeroChars 1 c10Block.hash) := by
  refine ⟨by decide, ?_⟩
  exact c10_powValidateBlock_uses_configured_difficulty ⟨1⟩ c10Block (by decide)

/-! ## C9 -/

/-- C9: refuted.  Blockchain.GetBlocks clamps only the stop position of
its slice: with stop = min(start + limit, block count), the expression
blocks[start:stop] panics whenever start exceeds stop, and the HTTP
handler passes the user-controlled start through uncapped.  On a freshly
initialised node, which stores exactly the genesis block, the query
start=2, limit=10 reaches the slice blocks[2:1] and panics (the none
branch), while start equal to the block count still returns the empty
slice, so the panic is not explained by any missing-data error path. -/
theorem c9_getBlocks_panics :
    (initialChain "2025-01-01T00:00:00Z").blocks.length = 1 ∧
    getBlocks (initialChain "2025-01-01T00:00:00Z") 2 10 = none ∧
    getBlocks (initialChain "2025-01-01T00:00:00Z") 1 10 = some [] := by
  refine ⟨rfl, ?_, ?_⟩ <;> decide

/-! ## C8 -/

def c8Tx : Transaction :=
  { id := "t1", fromAddr := "a", toAddr := "b", amount := 1, fee := 1,
    signature := "s", timestamp := "x" }

/-- C8 counterexample: with any transaction in the pool and the limit -1
(a legal Go int), GetTransactions reaches the slice expression
txs[:limit], which panics at runtime: no list at all is returned, so the
claim that every limit yields at most limit fee-sorted transactions fails
at this input. -/
theorem c8_counterexample_negative_limit :
    getTransactions [c8Tx] (-1) = none := by decide

/-- C8 (amended to non-negative limits): for every mempool state and every
limit of at least 0, GetTransactions returns a list of at most limit
transactions sorted in non-increasing fee order. -/
theorem c8_getTransactions_sorted_and_bounded (mp : Mempool) (limit : Int)
    (h : 0 ≤ limit) :
    ∃ txs, getTransactions mp limit = some txs ∧
      txs.length ≤ limit.toNat ∧ List.Sorted feeGE txs := by
  unfold getTransactions
  by_cases hgt : ((List.insertionSort feeGE mp).length : Int) > limit
  · rw [if_pos hgt, if_neg (by omega)]
    refine ⟨_, rfl, ?_, ?_⟩
    · exact List.length_take_le _ _
    · exact List.Pairwise.sublist (List.take_sublist _ _)
        (List.sorted_insertionSort feeGE mp)
  · rw [if_neg hgt]
    refine ⟨_, rfl, ?_, List.sorted_insertionSort feeGE mp⟩
    omega

def c8Tx2 : Transaction :=
  { id := "t2", fromAddr := "a", toAddr := "b", amount := 1, fee := 7,
    signature := "s", timestamp := "x" }

theorem c8_witness :
    (0 : Int) ≤ 1 ∧
    ∃ txs, getTransactions [c8Tx, c8Tx2] 1 = some txs ∧
      txs.length ≤ (1 : Int).toNat ∧ List.Sorted feeGE txs :=
  ⟨by decide, c8_getTransactions_sorted_and_bounded [c8Tx, c8Tx2] 1 (by decide)⟩

/-! ## C6 -/

/-- C6 (amended with the implicit no-overflow condition): for every
non-coinbase transaction whose amount plus fee does not overflow uint64
and every UTXO set in which the true aggregate balance of the sender is
below amount plus fee, ApplyTransaction reports an error and performs no
mutation. -/
theorem c6_insufficient_balance_rejected (s : UTXOSet) (tx : Transaction)
    (hncb : isCoinbase tx = false)
    (hw : tx.amount + tx.fee < W64)
    (hlt : mathBalance s tx.fromAddr < tx.amount + tx.fee) :
    (applyTransaction s tx).1 = s ∧ (applyTransaction s tx).2.isSome = true := by
  unfold applyTransaction
  rw [hncb]
  simp only [Bool.false_eq_true, if_false]
  by_cases he : (getUTXOsForAddress s tx.fromAddr).isEmpty
  · simp [he]
  · simp only [he, Bool.false_eq_true, if_false]
    have htot : txTotal tx = tx.amount + tx.fee := by
      simpa [txTotal, add64] using Nat.mod_eq_of_lt hw
    rw [htot]
    have hsum : (0 : Nat) + sumAmounts (getUTXOsForAddress s tx.fromAddr) < W64 := by
      unfold mathBalance at hlt
      omega
    have hspec := selectGreedy_spec (tx.amount + tx.fee) (getUTXOsForAddress s tx.fromAddr) 0 hsum
    rcases hspec with ⟨h1, h2, _⟩
    have hlt2 : (selectGreedy (tx.amount + tx.fee) (getUTXOsForAddress s tx.fromAddr) 0).2 <
        tx.amount + tx.fee := by
      rw [h1]
      have := sumAmounts_sublist_le h2
      unfold mathBalance at hlt
      omega
    rw [if_pos hlt2]
    exact ⟨rfl, rfl⟩

def c6Set : UTXOSet := [{ txId := "g", address := "a", amount := 1, index := 0 }]

def c6Tx : Transaction :=
  { id := "t", fromAddr := "a", toAddr := "b", amount := W64 - 1, fee := 1,
    signature := "s", timestamp := "x" }

/-- C6 counterexample: the sender holds a single UTXO of amount 1, far
below amount plus fee, yet because Total() wraps modulo 2^64 the needed
total is 0 and ApplyTransaction succeeds and rewrites the set (a classic
value-overflow inflation flaw), contradicting the claim that such a call
must fail with InsufficientBalance and leave the set unchanged. -/
theorem c6_counterexample_overflow :
    isCoinbase c6Tx = false ∧
    mathBalance c6Set c6Tx.fromAddr < c6Tx.amount + c6Tx.fee ∧
    (applyTransaction c6Set c6Tx).2 = none ∧
    (applyTransaction c6Set c6Tx).1 ≠ c6Set := by decide

theorem c6_witness :
    isCoinbase c8Tx = false ∧ c8Tx.amount + c8Tx.fee < W64 ∧
    mathBalance c6Set c8Tx.fromAddr < c8Tx.amount + c8Tx.fee ∧
    ((applyTransaction c6Set c8Tx).1 = c6Set ∧
      (applyTransaction c6Set c8Tx).2.isSome = true) :=
  ⟨by decide, by decide, by decide,
    c6_insufficient_balance_rejected c6Set c8Tx (by decide) (by decide) (by decide)⟩

/-! ## C3 -/

/-- C3 (amended): the gossip new_transaction handler performs no signature
and no balance validation at all; every decoded transaction whose id is
not already present is admitted to the mempool, and a duplicate id leaves
the mempool unchanged.  Validation happens only on the HTTP facade path. -/
theorem c3_gossip_admits_without_validation (st : SysState) (tx : Transaction) :
    (handleMessage st (GossipMessage.newTransaction tx)).mempool =
      if List.any st.mempool (fun t => t.id == tx.id) then st.mempool
      else st.mempool ++ [tx] := by
  simp only [handleMessage, mempoolAddTransaction]
  by_cases h : List.any st.mempool (fun t => t.id == tx.id)
  · simp [h]
  · simp [h]

def c3Tx : Transaction :=
  { id := "t1", fromAddr := "a", toAddr := "b", amount := 1, fee := 1,
    signature := "ff", timestamp := "x" }

def c3St : SysState := { chain := ⟨[], 0⟩, utxos := [], mempool := [] }

/-- C3 counterexample: a non-coinbase transaction whose sender has no
UTXOs at all (so the UTXO feasibility check of the node itself rejects
it) is admitted to the mempool by the gossip new_transaction path,
contradicting the claim that such a transaction is never admitted there. -/
theorem c3_counterexample_invalid_admitted :
    isCoinbase c3Tx = false ∧
    validateTransaction c3St.utxos c3Tx = some "insufficient balance" ∧
    (handleMessage c3St (GossipMessage.newTransaction c3Tx)).mempool = [c3Tx] := by
  decide

/-! ## C4 -/

def c4Time1 : String := "2025-01-01T00:00:00Z"

def c4Time2 : String := "2025-01-01T00:00:00.000000001Z"

/-- C4: the genesis block is not deterministic.  Two constructions one
nanosecond apart fix the block timestamp, previous hash, difficulty and
nonce as the claim says, but the coinbase inside is stamped with the
current instant, so the coinbase id, the merkle root and the block hash
all differ between the two calls. -/
theorem c4_genesis_nondeterministic :
    (newGenesisBlock c4Time1).transactions.map (fun t => t.id) ≠
      (newGenesisBlock c4Time2).transactions.map (fun t => t.id) ∧
    (newGenesisBlock c4Time1).merkleRoot ≠ (newGenesisBlock c4Time2).merkleRoot ∧
    (newGenesisBlock c4Time1).hash ≠ (newGenesisBlock c4Time2).hash ∧
    (newGenesisBlock c4Time1).previousHash = "0" ∧
    (newGenesisBlock c4Time1).difficulty = 1 ∧
    (newGenesisBlock c4Time1).nonce = 0 ∧
    (newGenesisBlock c4Time1).timestamp = genesisTimestamp := by decide

/-! ## C7 -/

def c7X : Nat :=
  402275873819480217527543954245978242749948912216697339260697277277855307913

def c7Y : Nat :=
  19411896589701336237661297174692886517905212093130893753719983191330346751652

/-- C7: PublicKeyToAddress does not zero-pad the coordinates.  The point
153 times the secp256k1 generator is a genuine public key whose X
coordinate fits in 31 bytes; its address is 128 hex characters, not 130,
and AddressToPublicKey rejects it at the 65-byte length check, refuting
the claim that every address is 130 characters and round-trips. -/
theorem c7_address_padding_bug :
    onCurve c7X c7Y = true ∧
    (publicKeyToAddress c7X c7Y).length = 128 ∧
    addressToPublicKey (publicKeyToAddress c7X c7Y) = none := by decide

/-! ## C2 -/

def dummyBlock : Block :=
  { index := 0, timestamp := "", transactions := [], nonce := 0,
    previousHash := "", merkleRoot := "", hash := "", difficulty := 0 }

/-- The chain states reachable by any sequence of appends: the freshly
initialised single-genesis chain, then any AddBlock call (performed by
the miner or by the gossip new_block handler, both of which go through
addBlock).  The UTXO set handed to each call is left unconstrained: the
states the running node actually pairs with the chain are a restriction
of this relation, so every invariant proved over it holds of the real
reachable states. -/
inductive ReachableChain : Blockchain → Prop where
  | init (now : String) : ReachableChain (initialChain now)
  | step (bc : Blockchain) (us : UTXOSet) (b : Block) (h : ReachableChain bc) :
      ReachableChain (addBlock bc us b).1.1

theorem getLast?_getD (l : List Block) (tip d : Block)
    (h : l.getLast? = some tip) : l.getD (l.length - 1) d = tip := by
  induction l with
  | nil => cases h
  | cons a rest ih =>
    cases rest with
    | nil =>
      simp only [List.getLast?_singleton, Option.some.injEq] at h
      simpa using h
    | cons b t =>
      rw [List.getLast?_cons_cons] at h
      have := ih h
      simpa using this

/-- A failed AddBlock leaves the chain unchanged (the shared UTXO set may
still have been mutated, which only the success conjuncts below rule
out). -/
theorem addBlock_err_chain (bc : Blockchain) (us : UTXOSet) (b : Block) (e : String)
    (h : (addBlock bc us b).2 = some e) : (addBlock bc us b).1.1 = bc := by
  unfold addBlock
  cases hv : chainValidateBlock bc b with
  | some e2 => rfl
  | none =>
    cases hu : updateTxs us b.transactions with
    | mk us2 r =>
      cases r with
      | some e2 => rfl
      | none =>
        exfalso
        unfold addBlock at h
        rw [hv, hu] at h
        exact Option.noConfusion h

/-- What a successful AddBlock guarantees, read off the source validation:
the index equals the stored height plus one, the block self-validates,
the previous hash matches the tip whenever the height is positive (on a
height-0 chain the comparison is skipped), and the chain grows by exactly
this block with the height incremented. -/
theorem addBlock_ok (bc : Blockchain) (us : UTXOSet) (b : Block)
    (h : (addBlock bc us b).2 = none) :
    b.index = bc.height + 1 ∧ blockValidate b = none ∧
    (0 < bc.height →
      ∃ tip, bc.blocks.getLast? = some tip ∧ b.previousHash = tip.hash) ∧
    (addBlock bc us b).1.1.blocks = bc.blocks ++ [b] ∧
    (addBlock bc us b).1.1.height = bc.height + 1 := by
  cases hv : chainValidateBlock bc b with
  | some e =>
    unfold addBlock at h
    rw [hv] at h
    simp at h
  | none =>
    cases hu : updateTxs us b.transactions with
    | mk us2 r =>
      cases r with
      | some e =>
        unfold addBlock at h
        rw [hv, hu] at h
        simp at h
      | none =>
        have happ : (addBlock bc us b).1.1 = ⟨bc.blocks ++ [b], bc.height + 1⟩ := by
          unfold addBlock
          rw [hv, hu]
        unfold chainValidateBlock at hv
        by_cases hh : 0 < bc.height
        · rw [if_pos hh] at hv
          cases hl : bc.blocks.getLast? with
          | none =>
            rw [hl] at hv
            exact Option.noConfusion hv
          | some tip =>
            rw [hl] at hv
            dsimp only at hv
            split_ifs at hv with h1 h2
            exact ⟨not_not.mp h2, hv, fun _ => ⟨tip, rfl, not_not.mp h1⟩,
              by rw [happ], by rw [happ]⟩
        · rw [if_neg hh] at hv
          split_ifs at hv with h1
          exact ⟨not_not.mp h1, hv, fun hpos => absurd hpos hh,
            by rw [happ], by rw [happ]⟩

/-- In every reachable state the stored height counter is the block count
minus one: genesis initialisation leaves height 0 with one block, and a
successful append increments both. -/
theorem reachable_height (bc : Blockchain) (hr : ReachableChain bc) :
    bc.height + 1 = bc.blocks.length := by
  induction hr with
  | init now => rfl
  | step bc us b hprev ih =>
    cases herr : (addBlock bc us b).2 with
    | some e =>
      rw [addBlock_err_chain bc us b e herr]
      exact ih
    | none =>
      obtain ⟨_, _, _, hbl, hht⟩ := addBlock_ok bc us b herr
      rw [hbl, hht, List.length_append, List.length_singleton]
      omega

/-- C2 (amended): in every reachable chain state, every block at height
h > 0 carries index h, and every block at height h of at least 2 links to
the hash of its predecessor.  The link clause cannot be strengthened to
height 1: ValidateBlock compares previous_hash only when bc.height > 0,
so the first block appended onto the genesis-only chain (height 0) may
carry an arbitrary previous_hash.  The leading-zero part of the original
claim is not an invariant either: AddBlock never checks Proof-of-Work
(the miner checks it before appending, the gossip new_block path does not
check it at all).  The counterexample exhibits both failures. -/
theorem c2_chain_link_invariant (bc : Blockchain) (hr : ReachableChain bc)
    (h : Nat) (hlen : h < bc.blocks.length) :
    (0 < h → (bc.blocks.getD h dummyBlock).index = h) ∧
    (2 ≤ h → (bc.blocks.getD h dummyBlock).previousHash =
      (bc.blocks.getD (h - 1) dummyBlock).hash) := by
  induction hr generalizing h with
  | init now =>
    simp only [initialChain, List.length_singleton] at hlen
    exact ⟨fun h0 => absurd h0 (by omega), fun h2 => absurd h2 (by omega)⟩
  | step bc us b hprev ih =>
    cases herr : (addBlock bc us b).2 with
    | some e =>
      rw [addBlock_err_chain bc us b e herr] at hlen ⊢
      exact ih h hlen
    | none =>
      obtain ⟨hi, _, hpl, hbl, _⟩ := addBlock_ok bc us b herr
      have hht := reachable_height bc hprev
      rw [hbl] at hlen ⊢
      rw [List.length_append, List.length_singleton] at hlen
      by_cases hcase : h < bc.blocks.length
      · have hcase1 : h - 1 < bc.blocks.length := by omega
        rw [List.getD_append _ _ _ _ hcase, List.getD_append _ _ _ _ hcase1]
        exact ih h hcase
      · have hh : h = bc.blocks.length := by omega
        rw [List.getD_append_right _ _ _ _ (by omega), hh, Nat.sub_self]
        have hb : [b].getD 0 dummyBlock = b := rfl
        rw [hb]
        constructor
        · intro _
          rw [hi]
          omega
        · intro h2
          have hpos : 0 < bc.height := by omega
          obtain ⟨tip, htipl, htiph⟩ := hpl hpos
          have htip : bc.blocks.getD (bc.blocks.length - 1) dummyBlock = tip :=
            getLast?_getD bc.blocks tip dummyBlock htipl
          rw [List.getD_append _ _ _ _ (by omega : bc.blocks.length - 1 < bc.blocks.length),
            htip]
          exact htiph

def c2Now : String := "2025-01-01T00:00:00Z"

def c2BadBlock : Block :=
  { index := 1, timestamp := "2025-01-01T00:00:01Z", transactions := [],
    nonce := 0,
    previousHash := "094744d5e86dd5693bba6029d068894154ea333b4d15c239e09de2452de14ef5",
    merkleRoot := "",
    hash := "1fadd2636f5501aeaf5daea6e1d6f778b24ad83421c4cdaa2e83a6ae874df45b",
    difficulty := 1 }

/-- A block at height 1 whose previous_hash is an arbitrary string that is
not the genesis hash; its stored hash is its correct self-hash. -/
def c2BogusBlock : Block :=
  { index := 1, timestamp := "2025-01-01T00:00:05Z", transactions := [],
    nonce := 0, previousHash := "bogus", merkleRoot := "",
    hash := "cf2efffd20dd0a254427232a2e2e7e9ea7380987ff525d3a0d18fc50211f61d1",
    difficulty := 1 }

def c2St : SysState :=
  { chain := initialChain c2Now, utxos := initialUTXOs c2Now, mempool := [] }

def c2Chain : Blockchain :=
  (addBlock (initialChain c2Now) (initialUTXOs c2Now) c2BadBlock).1.1

def c2ChainBogus : Blockchain :=
  (addBlock (initialChain c2Now) (initialUTXOs c2Now) c2BogusBlock).1.1

/-- C2 counterexample, two reachable states refuting two parts of the
claim.  First, a block with a correct self-hash but no leading zero
arrives through the gossip new_block path on a fresh node; AddBlock
accepts it, so a reachable state holds a block at height 1 whose hash
violates the leading-zeros-per-difficulty condition.  Second, because the
previous-hash comparison runs only when the height is positive, AddBlock
on a fresh node also accepts a block whose previous_hash is the arbitrary
string bogus, so a reachable state holds a block at height 1 that does
not link to the hash of the block below it. -/
theorem c2_counterexample_gossip_block_skips_pow :
    (handleMessage c2St (GossipMessage.newBlock c2BadBlock)).chain = c2Chain ∧
    ReachableChain c2Chain ∧
    (addBlock (initialChain c2Now) (initialUTXOs c2Now) c2BadBlock).2 = none ∧
    c2Chain.blocks.getD 1 dummyBlock = c2BadBlock ∧
    ¬ leadingZeroChars c2BadBlock.difficulty.toNat c2BadBlock.hash ∧
    ReachableChain c2ChainBogus ∧
    (addBlock (initialChain c2Now) (initialUTXOs c2Now) c2BogusBlock).2 = none ∧
    (c2ChainBogus.blocks.getD 1 dummyBlock).previousHash ≠
      (c2ChainBogus.blocks.getD 0 dummyBlock).hash := by
  refine ⟨rfl, ReachableChain.step _ _ _ (ReachableChain.init c2Now), ?_, ?_, by decide,
    ReachableChain.step _ _ _ (ReachableChain.init c2Now), ?_, ?_⟩
  · decide
  · decide
  · decide
  · decide

/-- A block at height 2 that does link to its predecessor; from height 2
on, the previous-hash comparison is active. -/
def c2B2 : Block :=
  { index := 2, timestamp := "2025-01-01T00:00:06Z", transactions := [],
    nonce := 0,
    previousHash := "1fadd2636f5501aeaf5daea6e1d6f778b24ad83421c4cdaa2e83a6ae874df45b",
    merkleRoot := "",
    hash := "ff0ac6739945a6fe72d4617a4815452459a88d5c5e69925c6d10e1b6069ac6b4",
    difficulty := 1 }

def c2Chain2 : Blockchain := (addBlock c2Chain (initialUTXOs c2Now) c2B2).1.1

theorem c2_witness :
    ReachableChain c2Chain2 ∧ 2 < c2Chain2.blocks.length ∧
    ((0 < 2 → (c2Chain2.blocks.getD 2 dummyBlock).index = 2) ∧
      (2 ≤ 2 → (c2Chain2.blocks.getD 2 dummyBlock).previousHash =
        (c2Chain2.blocks.getD (2 - 1) dummyBlock).hash)) :=
  ⟨ReachableChain.step _ _ _ (ReachableChain.step _ _ _ (ReachableChain.init c2Now)),
    by decide,
    c2_chain_link_invariant c2Chain2
      (ReachableChain.step _ _ _ (ReachableChain.step _ _ _ (ReachableChain.init c2Now)))
      2 (by decide)⟩

/-! ## C5: Merkle proof generation and verification agree. -/

theorem pairUp_length : ∀ (l : List String), (pairUp l).length = l.length / 2
  | [] => by simp [pairUp]
  | [a] => by simp [pairUp]
  | a :: b :: rest => by
    have := pairUp_length rest
    simp only [pairUp, List.length_cons]
    omega

theorem pairUp_getD : ∀ (l : List String) (j : Nat), 2 * j + 1 < l.length →
    (pairUp l).getD j "" = combineHashes (l.getD (2 * j) "") (l.getD (2 * j + 1) "")
  | [], j, h => by simp at h
  | [a], j, h => by simp only [List.length_singleton] at h; omega
  | a :: b :: rest, 0, _ => by simp [pairUp]
  | a :: b :: rest, j + 1, h => by
    have ih := pairUp_getD rest j (by simp only [List.length_cons] at h; omega)
    simp only [pairUp, List.getD_cons_succ]
    rw [show 2 * (j + 1) = 2 * j + 1 + 1 by omega]
    simpa [List.getD_cons_succ] using ih

theorem padEven_length_even (l : List String) : (padEven l).length % 2 = 0 := by
  unfold padEven
  by_cases h : l.length % 2 = 0
  · rw [if_pos h]; exact h
  · rw [if_neg h]
    simp only [List.length_append, List.length_singleton]
    omega

theorem padEven_length_bounds (l : List String) :
    l.length ≤ (padEven l).length ∧ (padEven l).length ≤ l.length + 1 := by
  unfold padEven
  by_cases h : l.length % 2 = 0
  · rw [if_pos h]; omega
  · rw [if_neg h]
    simp only [List.length_append, List.length_singleton]
    omega

theorem padEven_getD (l : List String) (j : Nat) (h : j < l.length) :
    (padEven l).getD j "" = l.getD j "" := by
  unfold padEven
  by_cases he : l.length % 2 = 0
  · rw [if_pos he]
  · rw [if_neg he]
    exact List.getD_append _ _ _ _ h

theorem verifyFold_half (proof : List String) : ∀ (x : String) (i k : Nat),
    verifyFold x proof i (k + 1) = verifyFold x proof (i / 2) k := by
  induction proof with
  | nil => intros; rfl
  | cons s rest ih =>
    intro x i k
    have hbit : i >>> (k + 1) = (i / 2) >>> k := by
      rw [show k + 1 = 1 + k by omega, Nat.shiftRight_add, Nat.shiftRight_one]
    simp only [verifyFold, hbit]
    exact ih _ i (k + 1)

/-- The level-by-level invariant tying proof generation, root construction
and proof verification together: at any level, verifying the proof
generated for position i starting from the element at position i yields
exactly the root built from that level. -/
theorem merkleLevelInvariant : ∀ (fuel : Nat) (level : List String) (i : Nat),
    i < level.length → level.length ≤ fuel →
    verifyFold (level.getD i "") (generateMerkleProofF fuel level i) i 0 =
      buildMerkleTreeF fuel level := by
  intro fuel
  induction fuel with
  | zero =>
    intro level i hi hf
    omega
  | succ f ih =>
    intro level i hi hf
    match level with
    | [] => simp at hi
    | [h] =>
      have hi0 : i = 0 := Nat.lt_one_iff.mp (by simpa using hi)
      subst hi0
      rfl
    | a :: b :: rest =>
      have hn : 2 ≤ (a :: b :: rest).length := by
        simp only [List.length_cons]
        omega
      set L := a :: b :: rest with hL
      have hpe : (padEven L).length % 2 = 0 := padEven_length_even L
      have hpb := padEven_length_bounds L
      have hsib : (if i % 2 = 0 then i + 1 else i - 1) < (padEven L).length := by
        by_cases hpar : i % 2 = 0
        · rw [if_pos hpar]; omega
        · rw [if_neg hpar]; omega
      have hnext_len : (pairUp (padEven L)).length = (padEven L).length / 2 :=
        pairUp_length _
      have hi2 : i / 2 < (pairUp (padEven L)).length := by
        rw [hnext_len]; omega
      have hf2 : (pairUp (padEven L)).length ≤ f := by
        rw [hnext_len]
        have : 2 ≤ L.length := hn
        omega
      have hstep := ih (pairUp (padEven L)) (i / 2) hi2 hf2
      have hgen : generateMerkleProofF (f + 1) L i =
          (padEven L).getD (if i % 2 = 0 then i + 1 else i - 1) "" ::
            generateMerkleProofF f (pairUp (padEven L)) (i / 2) := by
        conv_lhs => rw [hL]
        show (let padded := padEven L
              let sibIdx := if i % 2 = 0 then i + 1 else i - 1
              let head := if sibIdx < padded.length then [padded.getD sibIdx ""] else []
              head ++ generateMerkleProofF f (pairUp padded) (i / 2)) = _
        simp only
        rw [if_pos hsib]
        rfl
      have hbuild : buildMerkleTreeF (f + 1) L = buildMerkleTreeF f (pairUp (padEven L)) := by
        conv_lhs => rw [hL]
        rfl
      rw [hgen, hbuild]
      have hhead : verifyFold (L.getD i "")
          ((padEven L).getD (if i % 2 = 0 then i + 1 else i - 1) "" ::
            generateMerkleProofF f (pairUp (padEven L)) (i / 2)) i 0 =
          verifyFold ((pairUp (padEven L)).getD (i / 2) "")
            (generateMerkleProofF f (pairUp (padEven L)) (i / 2)) (i / 2) 0 := by
        simp only [verifyFold]
        rw [verifyFold_half]
        congr 1
        have hmod : (i >>> 0) &&& 1 = i % 2 := by
          rw [Nat.shiftRight_zero, Nat.and_one_is_mod]
        by_cases hpar : i % 2 = 0
        · rw [if_pos (by rw [hmod, hpar]; rfl)]
          rw [if_pos hpar]
          rw [pairUp_getD _ (i / 2) (by omega)]
          rw [show 2 * (i / 2) = i by omega]
          rw [padEven_getD L i hi]
        · rw [if_neg (by rw [hmod]; simpa using hpar)]
          rw [if_neg hpar]
          rw [pairUp_getD _ (i / 2) (by omega)]
          rw [show 2 * (i / 2) = i - 1 by omega]
          rw [show i - 1 + 1 = i by omega]
          rw [padEven_getD L i hi]
      rw [hhead]
      exact hstep

/-- C5: for every non-empty list of transaction ids and every index i
within it, the proof produced by GenerateMerkleProof for position i
verifies against the root produced by BuildMerkleRoot: the two sides
apply the duplicate-last-on-odd rule identically. -/
theorem c5_merkle_inclusion_roundtrip (ids : List String) (i : Nat)
    (hne : ids ≠ []) (hi : i < ids.length) :
    verifyTransactionInclusion (ids.getD i "") (buildMerkleRoot ids)
      (generateMerkleProof ids i) i = true := by
  unfold verifyTransactionInclusion buildMerkleRoot generateMerkleProof
  have hemp : ids.isEmpty = false := by
    cases ids with
    | nil => exact absurd rfl hne
    | cons a t => rfl
  rw [hemp]
  simp only [Bool.false_eq_true, if_false]
  rw [if_pos hi]
  rw [merkleLevelInvariant ids.length ids i hi (Nat.le_refl _)]
  exact beq_self_eq_true _

theorem c5_witness :
    (["a", "b", "c"] : List String) ≠ [] ∧ 2 < (["a", "b", "c"] : List String).length ∧
    verifyTransactionInclusion ((["a", "b", "c"] : List String).getD 2 "")
      (buildMerkleRoot ["a", "b", "c"]) (generateMerkleProof ["a", "b", "c"] 2) 2 = true :=
  ⟨by decide, by decide,
    c5_merkle_inclusion_roundtrip ["a", "b", "c"] 2 (by decide) (by decide)⟩

/-! ## C1: balance accounting lemmas for the UTXO engine. -/

theorem mathBalance_nil (a : String) : mathBalance [] a = 0 := rfl

theorem mathBalance_cons (v : UTXO) (s : UTXOSet) (a : String) :
    mathBalance (v :: s) a = (if v.address = a then v.amount else 0) + mathBalance s a := by
  unfold mathBalance getUTXOsForAddress
  by_cases h : v.address = a
  · rw [List.filter_cons_of_pos (by simp [h]), sumAmounts_cons, if_pos h]
  · rw [List.filter_cons_of_neg (by simp [h]), if_neg h]
    exact (Nat.zero_add _).symm

theorem mathBalance_append_single (s : UTXOSet) (u : UTXO) (a : String) :
    mathBalance (s ++ [u]) a = mathBalance s a + (if u.address = a then u.amount else 0) := by
  unfold mathBalance getUTXOsForAddress
  rw [List.filter_append, sumAmounts_append]
  congr 1
  by_cases h : u.address = a
  · simp [h, sumAmounts]
  · simp [h, sumAmounts]

theorem getBalance_foldl (a : String) : ∀ (l : List UTXO) (acc : Nat),
    acc + sumAmounts l < W64 →
    l.foldl (fun acc2 u => add64 acc2 u.amount) acc = acc + sumAmounts l := by
  intro l
  induction l with
  | nil => intro acc _; simp [sumAmounts_nil]
  | cons u rest ih =>
    intro acc h
    rw [sumAmounts_cons] at h
    have h2 : add64 acc u.amount = acc + u.amount := by
      simpa [add64] using Nat.mod_eq_of_lt (by omega)
    simp only [List.foldl_cons, h2]
    rw [ih (acc + u.amount) (by omega), sumAmounts_cons]
    omega

/-- GetBalance agrees with the true balance when it does not overflow. -/
theorem getBalance_eq_mathBalance (s : UTXOSet) (a : String)
    (h : mathBalance s a < W64) : getBalance s a = mathBalance s a := by
  unfold getBalance
  unfold mathBalance at h
  rw [getBalance_foldl a _ 0 (by omega)]
  unfold mathBalance
  omega

theorem addUTXO_fresh (s : UTXOSet) (u : UTXO)
    (h : ∀ v ∈ s, ¬(v.txId = u.txId ∧ v.index = u.index)) :
    addUTXO s u = s ++ [u] := by
  unfold addUTXO
  congr 1
  apply List.filter_eq_self.mpr
  intro v hv
  have hvv := h v hv
  simp only [utxoKeyIs, Bool.not_eq_true', Bool.and_eq_false_iff, beq_eq_false_iff_ne, ne_eq]
  by_cases h1 : v.txId = u.txId
  · exact Or.inr (fun h2 => hvv ⟨h1, h2⟩)
  · exact Or.inl h1

theorem removeUTXO_of_not_mem (s : UTXOSet) (tid : String) (idx : Int)
    (h : ∀ v ∈ s, ¬(v.txId = tid ∧ v.index = idx)) :
    removeUTXO s tid idx = s := by
  unfold removeUTXO
  apply List.filter_eq_self.mpr
  intro v hv
  have hvv := h v hv
  simp only [utxoKeyIs, Bool.not_eq_true', Bool.and_eq_false_iff, beq_eq_false_iff_ne, ne_eq]
  by_cases h1 : v.txId = tid
  · exact Or.inr (fun h2 => hvv ⟨h1, h2⟩)
  · exact Or.inl h1

theorem nodup_keys_of_sublist {s1 s2 : UTXOSet} (h : s1.Sublist s2)
    (hn : (utxoKeys s2).Nodup) : (utxoKeys s1).Nodup :=
  List.Nodup.sublist (List.Sublist.map _ h) hn

/-- Removing one present key from a key-nodup set lowers the balance of its
address by exactly its amount. -/
theorem removeUTXO_balance (a : String) : ∀ (s : UTXOSet) (u : UTXO),
    (utxoKeys s).Nodup → u ∈ s →
    mathBalance (removeUTXO s u.txId u.index) a +
      (if u.address = a then u.amount else 0) = mathBalance s a := by
  intro s
  induction s with
  | nil =>
    intro u _ hu
    cases hu
  | cons v s0 ih =>
    intro u hn hu
    obtain ⟨hkv, hn0⟩ :=
      List.nodup_cons.mp (show ((v.txId, v.index) :: utxoKeys s0).Nodup from hn)
    have hn0k : (utxoKeys s0).Nodup := hn0
    by_cases hid : utxoKeyIs u.txId u.index v = true
    · have hkeq : v.txId = u.txId ∧ v.index = u.index := by
        simpa [utxoKeyIs] using hid
      have huv : u = v := by
        rcases List.mem_cons.mp hu with h | h
        · exact h
        · exfalso
          apply hkv
          have : (v.txId, v.index) = (u.txId, u.index) := by
            rw [hkeq.1, hkeq.2]
          rw [this]
          exact List.mem_map.mpr ⟨u, h, rfl⟩
      subst huv
      unfold removeUTXO
      rw [List.filter_cons_of_neg (by simp [hid])]
      have hrest : List.filter (fun w => !(utxoKeyIs u.txId u.index w)) s0 = s0 := by
        apply List.filter_eq_self.mpr
        intro w hw
        simp only [utxoKeyIs, Bool.not_eq_true', Bool.and_eq_false_iff,
          beq_eq_false_iff_ne, ne_eq]
        by_cases h1 : w.txId = u.txId
        · refine Or.inr (fun h2 => ?_)
          apply hkv
          have heq2 : (u.txId, u.index) = (w.txId, w.index) := by rw [h1, h2]
          rw [heq2]
          exact List.mem_map.mpr ⟨w, hw, rfl⟩
        · exact Or.inl h1
      rw [hrest, mathBalance_cons]
      omega
    · have hu0 : u ∈ s0 := by
        rcases List.mem_cons.mp hu with h | h
        · exfalso
          apply hid
          subst h
          simp [utxoKeyIs]
        · exact h
      unfold removeUTXO
      rw [List.filter_cons_of_pos (by simp [hid])]
      rw [mathBalance_cons, mathBalance_cons]
      have := ih u hn0k hu0
      unfold removeUTXO at this
      omega

theorem removeAll_sublist : ∀ (sel : List UTXO) (s : UTXOSet),
    (sel.foldl (fun acc u => removeUTXO acc u.txId u.index) s).Sublist s
  | [], s => List.Sublist.refl s
  | u :: rest, s => by
    simp only [List.foldl_cons]
    exact (removeAll_sublist rest _).trans (List.filter_sublist s)

/-- Spending a key-distinct selection lowers each balance by the summed
amounts of the selected UTXOs at that address. -/
theorem removeAll_balance (a : String) : ∀ (sel : List UTXO) (s : UTXOSet),
    (utxoKeys s).Nodup → sel.Sublist s →
    mathBalance (sel.foldl (fun acc u => removeUTXO acc u.txId u.index) s) a +
      sumAmounts (List.filter (fun u => u.address == a) sel) = mathBalance s a := by
  intro sel
  induction sel with
  | nil =>
    intro s _ _
    simp [sumAmounts_nil]
  | cons u rest ih =>
    intro s hn hsub
    have hu : u ∈ s := hsub.subset (List.mem_cons_self u rest)
    have hRB := removeUTXO_balance a s u hn hu
    have hn2 : (utxoKeys (removeUTXO s u.txId u.index)).Nodup :=
      nodup_keys_of_sublist (List.filter_sublist s) hn
    have hselkeys : (utxoKeys (u :: rest)).Nodup := nodup_keys_of_sublist hsub hn
    obtain ⟨hku, _⟩ :=
      List.nodup_cons.mp (show ((u.txId, u.index) :: utxoKeys rest).Nodup from hselkeys)
    have hrest : rest.Sublist (removeUTXO s u.txId u.index) := by
      have h1 : rest.Sublist s := (List.sublist_cons_self u rest).trans hsub
      have h2 : List.filter (fun w => !(utxoKeyIs u.txId u.index w)) rest = rest := by
        apply List.filter_eq_self.mpr
        intro w hw
        simp only [utxoKeyIs, Bool.not_eq_true', Bool.and_eq_false_iff,
          beq_eq_false_iff_ne, ne_eq]
        by_cases hq : w.txId = u.txId
        · refine Or.inr (fun hq2 => ?_)
          apply hku
          have : (u.txId, u.index) = (w.txId, w.index) := by rw [hq, hq2]
          rw [this]
          exact List.mem_map.mpr ⟨w, hw, rfl⟩
        · exact Or.inl hq
      have h4 : (List.filter (fun w => !(utxoKeyIs u.txId u.index w)) rest).Sublist
          (List.filter (fun w => !(utxoKeyIs u.txId u.index w)) s) := h1.filter _
      rw [h2] at h4
      exact h4
    have hrec := ih (removeUTXO s u.txId u.index) hn2 hrest
    simp only [List.foldl_cons]
    by_cases ha : u.address = a
    · rw [List.filter_cons_of_pos (by simp [ha]), sumAmounts_cons]
      rw [if_pos ha] at hRB
      omega
    · rw [List.filter_cons_of_neg (by simp [ha])]
      rw [if_neg ha] at hRB
      omega

/-- Applying a coinbase inserts exactly one fresh UTXO for the recipient. -/
theorem applyTransaction_coinbase (s : UTXOSet) (cb : Transaction)
    (hcb : isCoinbase cb = true)
    (hfresh : ∀ v ∈ s, v.txId ≠ cb.id) :
    applyTransaction s cb =
      (s ++ [{ txId := cb.id, address := cb.toAddr, amount := cb.amount, index := 0 }],
        none) := by
  unfold applyTransaction
  rw [hcb, if_pos rfl]
  rw [addUTXO_fresh s _ (fun v hv hand => hfresh v hv hand.1)]

/-- Applying a non-coinbase transaction with a covered, non-overflowing
total succeeds and moves exactly amount to the recipient and amount plus
fee out of the sender, touching no other address. -/
theorem applyTransaction_spend (s : UTXOSet) (tx : Transaction)
    (hncb : isCoinbase tx = false)
    (hnodup : (utxoKeys s).Nodup)
    (hfresh : ∀ v ∈ s, v.txId ≠ tx.id)
    (hW : tx.amount + tx.fee < W64)
    (hpos : 0 < tx.amount + tx.fee)
    (hbW : mathBalance s tx.fromAddr < W64)
    (hbal : tx.amount + tx.fee ≤ mathBalance s tx.fromAddr)
    (hto : tx.toAddr ≠ tx.fromAddr) :
    (applyTransaction s tx).2 = none ∧
    mathBalance (applyTransaction s tx).1 tx.fromAddr =
      mathBalance s tx.fromAddr - (tx.amount + tx.fee) ∧
    mathBalance (applyTransaction s tx).1 tx.toAddr =
      mathBalance s tx.toAddr + tx.amount ∧
    (∀ c, c ≠ tx.fromAddr → c ≠ tx.toAddr →
      mathBalance (applyTransaction s tx).1 c = mathBalance s c) := by
  have htot : txTotal tx = tx.amount + tx.fee := by
    simpa [txTotal, add64] using Nat.mod_eq_of_lt hW
  unfold applyTransaction
  rw [hncb]
  simp only [Bool.false_eq_true, if_false]
  rw [htot]
  set sender := getUTXOsForAddress s tx.fromAddr with hsender
  have hmbs : mathBalance s tx.fromAddr = sumAmounts sender := by
    unfold mathBalance
    rw [hsender]
  have hne : sender.isEmpty = false := by
    cases hs : sender with
    | nil =>
      exfalso
      have hb2 := hbal
      rw [hmbs, hs, sumAmounts_nil] at hb2
      omega
    | cons v l => rfl
  rw [hne]
  simp only [Bool.false_eq_true, if_false]
  obtain ⟨h1, h2, h3⟩ := selectGreedy_spec (tx.amount + tx.fee) sender 0
    (by rw [hmbs] at hbW; omega)
  have hSge : ¬ ((selectGreedy (tx.amount + tx.fee) sender 0).2 < tx.amount + tx.fee) := by
    intro hlt
    have hall := h3 hlt
    rw [hall] at h1
    rw [hmbs] at hbal
    omega
  rw [if_neg hSge]
  set sel := (selectGreedy (tx.amount + tx.fee) sender 0).1 with hselEq
  have hsel_addr : ∀ v ∈ sel, v.address = tx.fromAddr := by
    intro v hv
    have hvs : v ∈ sender := h2.subset hv
    rw [hsender] at hvs
    have := List.of_mem_filter hvs
    simpa using this
  have hsender_sub : sender.Sublist s := by
    rw [hsender]
    exact List.filter_sublist s
  have hsel_sub : sel.Sublist s := h2.trans hsender_sub
  have hrall_from := removeAll_balance tx.fromAddr sel s hnodup hsel_sub
  have hrall_to := removeAll_balance tx.toAddr sel s hnodup hsel_sub
  set s1 := sel.foldl (fun acc u => removeUTXO acc u.txId u.index) s with hs1
  have hfilter_from : List.filter (fun u => u.address == tx.fromAddr) sel = sel :=
    List.filter_eq_self.mpr (fun v hv => by simp [hsel_addr v hv])
  have hfilter_other : ∀ c, c ≠ tx.fromAddr →
      List.filter (fun u => u.address == c) sel = [] := by
    intro c hc
    rw [List.filter_eq_nil_iff]
    intro v hv
    rw [hsel_addr v hv]
    simp only [beq_eq_false_iff_ne, ne_eq, Bool.not_eq_true]
    exact fun h => hc h.symm
  have hfresh1 : ∀ v ∈ s1, v.txId ≠ tx.id := by
    intro v hv
    exact hfresh v ((removeAll_sublist sel s).subset hv)
  have hadd2 : addUTXO s1
      { txId := tx.id, address := tx.toAddr, amount := tx.amount, index := 0 } =
      s1 ++ [{ txId := tx.id, address := tx.toAddr, amount := tx.amount, index := 0 }] :=
    addUTXO_fresh _ _ (fun v hv hand => hfresh1 v hv hand.1)
  have hS1 : (selectGreedy (tx.amount + tx.fee) sender 0).2 = sumAmounts sel := by
    rw [h1]
    omega
  have hle_sender : sumAmounts sel ≤ sumAmounts sender := sumAmounts_sublist_le h2
  have hfrom_acc : mathBalance s1 tx.fromAddr + sumAmounts sel = mathBalance s tx.fromAddr := by
    have := hrall_from
    rw [hfilter_from] at this
    exact this
  have hto_acc : mathBalance s1 tx.toAddr = mathBalance s tx.toAddr := by
    have := hrall_to
    rw [hfilter_other tx.toAddr hto, sumAmounts_nil] at this
    omega
  by_cases hch : 0 < (selectGreedy (tx.amount + tx.fee) sender 0).2 - (tx.amount + tx.fee)
  · rw [if_pos hch, hadd2]
    have hadd3 : addUTXO
        (s1 ++ [{ txId := tx.id, address := tx.toAddr, amount := tx.amount, index := 0 }])
        { txId := tx.id, address := tx.fromAddr,
          amount := (selectGreedy (tx.amount + tx.fee) sender 0).2 - (tx.amount + tx.fee),
          index := 1 } =
        (s1 ++ [{ txId := tx.id, address := tx.toAddr, amount := tx.amount, index := 0 }]) ++
          [{ txId := tx.id, address := tx.fromAddr,
             amount := (selectGreedy (tx.amount + tx.fee) sender 0).2 - (tx.amount + tx.fee),
             index := 1 }] := by
      apply addUTXO_fresh
      intro v hv hand
      rcases List.mem_append.mp hv with h | h
      · exact hfresh1 v h hand.1
      · rw [List.mem_singleton.mp h] at hand
        cases hand.2
    rw [hadd3]
    refine ⟨rfl, ?_, ?_, ?_⟩
    · simp only [mathBalance_append_single, if_true]
      rw [if_neg hto]
      rw [hS1] at hch ⊢
      omega
    · simp only [mathBalance_append_single, if_true]
      rw [if_neg (fun h => hto h.symm)]
      omega
    · intro c hc1 hc2
      simp only [mathBalance_append_single]
      rw [if_neg (fun h => hc2 h.symm), if_neg (fun h => hc1 h.symm)]
      have hother := removeAll_balance c sel s hnodup hsel_sub
      rw [← hs1] at hother
      rw [hfilter_other c hc1, sumAmounts_nil] at hother
      omega
  · rw [if_neg hch, hadd2]
    have hSeq : (selectGreedy (tx.amount + tx.fee) sender 0).2 = tx.amount + tx.fee := by
      omega
    refine ⟨rfl, ?_, ?_, ?_⟩
    · simp only [mathBalance_append_single]
      rw [if_neg hto]
      rw [hS1] at hSeq
      omega
    · simp only [mathBalance_append_single, if_true]
      omega
    · intro c hc1 hc2
      simp only [mathBalance_append_single]
      rw [if_neg (fun h => hc2 h.symm)]
      have hother := removeAll_balance c sel s hnodup hsel_sub
      rw [← hs1] at hother
      rw [hfilter_other c hc1, sumAmounts_nil] at hother
      omega

theorem powMine_transactions (pow : ProofOfWork) :
    ∀ (fuel : Nat) (b b2 : Block), powMine pow fuel b = some b2 →
      b2.transactions = b.transactions
  | 0, _, _, h => by cases h
  | fuel + 1, b, b2, h => by
    simp only [powMine] at h
    split_ifs at h with hv
    · cases h
      rfl
    · have := powMine_transactions pow fuel _ _ h
      simpa using this

theorem isCoinbase_newCoinbaseTransaction (now toA : String) (amt : Nat) :
    isCoinbase (newCoinbaseTransaction now toA amt) = true := rfl

/-- The coinbase of the concrete mining run below: built for miner M at
the coinbase instant with amount 60 = 50 reward + 10 fee. -/
def c1Cb : Transaction := newCoinbaseTransaction "2025-01-01T00:00:03Z" "M" 60

def c1Tx : Transaction :=
  { id := "9b5a0bd731aa889fa832709e8ff3ff685f3af75f03f06b14a673d49b648f05d1",
    fromAddr := "A", toAddr := "B", amount := 100, fee := 10,
    signature := "sig", timestamp := "2025-01-01T00:00:02Z" }

def c1St : SysState :=
  { chain := initialChain "2025-01-01T00:00:00Z",
    utxos := [{ txId := "g", address := "A", amount := 400, index := 0 }],
    mempool := [c1Tx] }

/-- C1: refuted, by running the whole mining pipeline on a concrete
state.  Each transaction of the mined block is applied to the UTXO set
twice, not once: AddBlock applies every block transaction to the shared
UTXO set before appending, and MineBlock then calls UTXOSet.Update on the
same set, with an Update failure merely logged.  On a state funding the
sender A with a single 400-unit UTXO and a mempool holding the pending
A-to-B transfer of amount 100 and fee 10, mining succeeds, B ends at 100
and the miner M at 60 as the claim says (the second application
overwrites the same UTXO keys with equal values), but A ends at
180 = 400 - 220, not at 290 = 400 - 110: the change output created by the
first application is spent again by the second, and the final set is
literally two stop-at-first-error passes of the block transactions over
the starting set.  The last two conjuncts record what a single
application, which the claim asserts, would give.  (When A is funded with
exactly 110 the second application fails on insufficient balance and is
discarded, so exactly-funded runs hide the bug.) -/
theorem c1_double_application :
    (mineBlock ⟨1⟩ 5 "2025-01-01T00:00:03Z" "2025-01-01T00:00:07Z" "M" c1St).2 = none ∧
    getBalance c1St.utxos "A" = 400 ∧
    getBalance (mineBlock ⟨1⟩ 5 "2025-01-01T00:00:03Z" "2025-01-01T00:00:07Z" "M"
      c1St).1.utxos "B" = 100 ∧
    getBalance (mineBlock ⟨1⟩ 5 "2025-01-01T00:00:03Z" "2025-01-01T00:00:07Z" "M"
      c1St).1.utxos "M" = 60 ∧
    getBalance (mineBlock ⟨1⟩ 5 "2025-01-01T00:00:03Z" "2025-01-01T00:00:07Z" "M"
      c1St).1.utxos "A" = 180 ∧
    (mineBlock ⟨1⟩ 5 "2025-01-01T00:00:03Z" "2025-01-01T00:00:07Z" "M" c1St).1.mempool = [] ∧
    (mineBlock ⟨1⟩ 5 "2025-01-01T00:00:03Z" "2025-01-01T00:00:07Z" "M" c1St).1.utxos =
      (updateTxs (updateTxs c1St.utxos [c1Cb, c1Tx]).1 [c1Cb, c1Tx]).1 ∧
    (updateTxs c1St.utxos [c1Cb, c1Tx]).2 = none ∧
    getBalance (updateTxs c1St.utxos [c1Cb, c1Tx]).1 "A" = 290 := by
  refine ⟨?_, ?_, ?_, ?_, ?_, ?_, ?_, ?_, ?_⟩ <;> decide

end Vulcan
